import Mathlib

/-!
Verification of the pwc-bin-packing solvers.

Shallow embedding of `src/pbp/solvers.py`: the combination search engine
`fit_n_bins`, the three solver strategies (length-first, capacity-first,
combo), and the solver factory `create_solver`.  Loads and bin capacities
are Python integers, embedded as `Int`.  Combinations are embedded as
`List Int` (Python tuples), collections of combinations as `List (List Int)`.
The unbounded `while True` loops of the solvers are embedded with explicit
fuel; returning `none` means the fuel ran out before the loop returned.
-/

namespace PBP

/-- Helper for `cwr`: given the enumeration `prev` of one-shorter
combinations from each suffix, build the combinations from `l` headed by
each element of `l` in turn. -/
def cwrGo (prev : List Int → List (List Int)) : List Int → List (List Int)
  | [] => []
  | x :: xs => ((prev (x :: xs)).map fun c => x :: c) ++ cwrGo prev xs

/-- Recursion on the combination length for `cwr`. -/
def cwrN : Nat → List Int → List (List Int)
  | 0, _ => [[]]
  | n + 1, l => cwrGo (cwrN n) l

/-- Embeds `itertools.combinations_with_replacement(bins, r=n)`: all length-`n`
nondecreasing-index selections from `bins`, in the enumeration order used by
`itertools` (lexicographic in the chosen indices). -/
def cwr (l : List Int) (n : Nat) : List (List Int) :=
  cwrN n l

theorem cwr_zero (l : List Int) : cwr l 0 = [[]] := rfl

theorem cwr_nil (n : Nat) : cwr [] (n + 1) = [] := rfl

theorem cwr_cons (x : Int) (xs : List Int) (n : Nat) :
    cwr (x :: xs) (n + 1) =
      ((cwr (x :: xs) n).map fun c => x :: c) ++ cwr xs (n + 1) := rfl

/-- Induction principle following the recursion structure of `cwr`. -/
theorem cwr_induction {motive : List Int → Nat → Prop}
    (h0 : ∀ l, motive l 0) (hnil : ∀ n, motive [] (n + 1))
    (hcons : ∀ x xs n, motive (x :: xs) n → motive xs (n + 1) →
      motive (x :: xs) (n + 1)) :
    ∀ l n, motive l n := by
  intro l n
  induction n generalizing l with
  | zero => exact h0 l
  | succ n ihn =>
    induction l with
    | nil => exact hnil n
    | cons x xs ihl => exact hcons x xs n (ihn (x :: xs)) ihl

/-- One iteration of the `for combination in combinations` loop body of
`SolverBase.fit_n_bins`.  The state is `(capacity_min, combos)`;
`capacity_min = none` embeds the initial `float("inf")`. -/
def fitStep (load : Int) (st : Option Int × List (List Int)) (c : List Int) :
    Option Int × List (List Int) :=
  let capacity := c.sum
  if capacity < load then st
  else
    match st with
    | (none, _) => (some capacity, [c])
    | (some m, combos) =>
      if capacity < m then (some capacity, [c])
      else if m = capacity then (some m, combos ++ [c])
      else (some m, combos)

/-- Embeds `SolverBase.fit_n_bins`: scan all `n`-length combinations-with-replacement
of `bins`, keeping the qualifying (capacity `≥ load`) combinations of minimal
capacity; return them, or `[]` if none qualify. -/
def fit_n_bins (load : Int) (bins : List Int) (n : Nat) : List (List Int) :=
  let res := (cwr bins n).foldl (fitStep load) (none, [])
  match res.1 with
  | none => []
  | some m => if load ≤ m then res.2 else []

/-- Loop of `SolverLengthFirst.solve`: increment `n`, search, return the first
non-empty result.  `fuel` bounds the number of iterations. -/
def SolverLengthFirst.solveAux (load : Int) (bins : List Int) :
    Nat → Nat → Option (List (List Int))
  | 0, _ => none
  | fuel + 1, n =>
    let combos := fit_n_bins load bins (n + 1)
    if combos = [] then SolverLengthFirst.solveAux load bins fuel (n + 1)
    else some combos

/-- Fuel-bounded embedding of `SolverLengthFirst.solve`. -/
def SolverLengthFirst.solve (load : Int) (bins : List Int) (fuel : Nat) :
    Option (List (List Int)) :=
  SolverLengthFirst.solveAux load bins fuel 0

/-- Loop of `SolverCapacityFirst.solve`: increment `n`, search, return the
first result that is non-empty and whose first combination sums exactly to
the load. -/
def SolverCapacityFirst.solveAux (load : Int) (bins : List Int) :
    Nat → Nat → Option (List (List Int))
  | 0, _ => none
  | fuel + 1, n =>
    match fit_n_bins load bins (n + 1) with
    | [] => SolverCapacityFirst.solveAux load bins fuel (n + 1)
    | c :: rest =>
      if c.sum = load then some (c :: rest)
      else SolverCapacityFirst.solveAux load bins fuel (n + 1)

/-- Fuel-bounded embedding of `SolverCapacityFirst.solve`. -/
def SolverCapacityFirst.solve (load : Int) (bins : List Int) (fuel : Nat) :
    Option (List (List Int)) :=
  SolverCapacityFirst.solveAux load bins fuel 0

/-- Loop of `SolverCombo.solve`: holding the results `combos_n` for the
current length `n`, compute the results for `n + 1`; if either is empty,
advance; otherwise compare the capacities of the first combinations. -/
def SolverCombo.solveAux (load : Int) (bins : List Int) :
    Nat → Nat → List (List Int) → Option (List (List Int))
  | 0, _, _ => none
  | fuel + 1, n, combos_n =>
    let combos_np1 := fit_n_bins load bins (n + 1)
    if combos_n = [] ∨ combos_np1 = [] then
      SolverCombo.solveAux load bins fuel (n + 1) combos_np1
    else if (combos_np1.headD []).sum < (combos_n.headD []).sum then
      some combos_np1
    else some combos_n

/-- Fuel-bounded embedding of `SolverCombo.solve`: starts at `n = 1` with
`combos_n = fit_n_bins load bins 1`. -/
def SolverCombo.solve (load : Int) (bins : List Int) (fuel : Nat) :
    Option (List (List Int)) :=
  SolverCombo.solveAux load bins fuel 1 (fit_n_bins load bins 1)

/-- A solver instance: a strategy bound to a load and bins (an object of one
of the registered solver classes). -/
inductive SolverInstance where
  | base (load : Int) (bins : List Int)
  | lengthFirst (load : Int) (bins : List Int)
  | capacityFirst (load : Int) (bins : List Int)
  | comboSolver (load : Int) (bins : List Int)
deriving DecidableEq, Repr

/-- The solver registry built by the `RegistrySolvers` metaclass: each
registered class paired with its `solver_type` attribute (`none` embeds
`SolverBase.solver_type = None`). -/
def registry : List (Option String × (Int → List Int → SolverInstance)) :=
  [(none, SolverInstance.base),
   (some ("length"), SolverInstance.lengthFirst),
   (some ("capacity"), SolverInstance.capacityFirst),
   (some ("combo"), SolverInstance.comboSolver)]

/-- Embeds `create_solver`: scan the registry for a class whose `solver_type`
matches and instantiate it; fall through to `None` when no class matches. -/
def create_solver (load : Int) (bins : List Int) (solver_type : String) :
    Option SolverInstance :=
  (registry.find? fun p => p.1 == some solver_type).map fun p => p.2 load bins

/-- The capacities of the qualifying (capacity `≥ load`) length-`n`
combinations, as scanned by the engine. -/
def qualCaps (load : Int) (bins : List Int) (n : Nat) : List Int :=
  ((cwr bins n).filter fun c => decide (load ≤ c.sum)).map List.sum

/-- The minimal qualifying capacity at length `n` (`none` when no length-`n`
combination can accommodate the load). -/
def minQualCap (load : Int) (bins : List Int) (n : Nat) : Option Int :=
  (qualCaps load bins n).min?

/-- The state `(capacity_min, combos)` that the engine's scan reaches after
processing the combination list `L`: the minimum qualifying capacity seen so
far, and the qualifying combinations achieving it, in scan order. -/
def fitState (load : Int) (L : List (List Int)) : Option Int × List (List Int) :=
  match ((L.filter fun c => decide (load ≤ c.sum)).map List.sum).min? with
  | none => (none, [])
  | some m =>
    (some m,
     (L.filter fun c => decide (load ≤ c.sum)).filter fun c => decide (c.sum = m))

theorem length_of_mem_cwr {l : List Int} {n : Nat} {c : List Int}
    (h : c ∈ cwr l n) : c.length = n := by
  induction l, n using cwr_induction generalizing c with
  | h0 l => rw [cwr_zero] at h; simp at h; simp [h]
  | hnil n => rw [cwr_nil] at h; simp at h
  | hcons x xs n ih1 ih2 =>
    rw [cwr_cons, List.mem_append, List.mem_map] at h
    rcases h with ⟨c', hc', rfl⟩ | h
    · simp [ih1 hc']
    · exact ih2 h

theorem mem_of_mem_cwr {l : List Int} {n : Nat} {c : List Int}
    (h : c ∈ cwr l n) {a : Int} (ha : a ∈ c) : a ∈ l := by
  induction l, n using cwr_induction generalizing c with
  | h0 l => rw [cwr_zero] at h; simp at h; subst h; simp at ha
  | hnil n => rw [cwr_nil] at h; simp at h
  | hcons x xs n ih1 ih2 =>
    rw [cwr_cons, List.mem_append, List.mem_map] at h
    rcases h with ⟨c', hc', rfl⟩ | h
    · rcases List.mem_cons.mp ha with rfl | ha'
      · simp
      · exact ih1 hc' ha'
    · exact List.mem_cons_of_mem _ (ih2 h ha)

theorem replicate_mem_cwr (x : Int) (xs : List Int) (n : Nat) :
    List.replicate n x ∈ cwr (x :: xs) n := by
  induction n with
  | zero => rw [cwr_zero]; simp
  | succ n ih =>
    rw [cwr_cons, List.mem_append, List.mem_map]
    exact Or.inl ⟨List.replicate n x, ih, (List.replicate_succ x n).symm⟩

theorem cons_mem_cwr {x : Int} {xs c : List Int} {n : Nat}
    (h : c ∈ cwr (x :: xs) n) : x :: c ∈ cwr (x :: xs) (n + 1) := by
  rw [cwr_cons, List.mem_append, List.mem_map]
  exact Or.inl ⟨c, h, rfl⟩

theorem cwr_nodup {l : List Int} (hl : l.Nodup) (n : Nat) :
    (cwr l n).Nodup := by
  induction l, n using cwr_induction with
  | h0 l => rw [cwr_zero]; simp
  | hnil n => rw [cwr_nil]; simp
  | hcons x xs n ih1 ih2 =>
    rw [cwr_cons]
    refine List.Nodup.append ((ih1 hl).map ?_) (ih2 (List.nodup_cons.mp hl).2) ?_
    · intro a b hab
      exact List.tail_eq_of_cons_eq hab
    · intro c hc1 hc2
      rcases List.mem_map.mp hc1 with ⟨c', _, rfl⟩
      have hx : x ∈ xs := mem_of_mem_cwr hc2 (List.mem_cons_self x c')
      exact (List.nodup_cons.mp hl).1 hx

theorem int_min?_eq_some_iff {xs : List Int} {a : Int} :
    xs.min? = some a ↔ a ∈ xs ∧ ∀ b ∈ xs, a ≤ b := by
  haveI : Std.Antisymm ((· : Int) ≤ ·) := ⟨fun h h2 => le_antisymm h h2⟩
  have h : xs.min? = some a ↔ a ∈ xs ∧ ∀ b, b ∈ xs → a ≤ b :=
    List.min?_eq_some_iff (fun a => le_refl a) (fun a b => min_choice a b)
      (fun a b c => le_min_iff)
  simpa using h

theorem int_min?_concat (xs : List Int) (y : Int) :
    (xs ++ [y]).min? =
      some (match xs.min? with | none => y | some m => min m y) := by
  cases xs with
  | nil => simp [List.min?]
  | cons x xs =>
    rw [List.cons_append, List.min?_cons', List.min?_cons', List.foldl_append]
    rfl

theorem fitStep_skip {load : Int} {c : List Int} (st : Option Int × List (List Int))
    (h : c.sum < load) : fitStep load st c = st := by
  unfold fitStep
  simp [h]

theorem fitStep_first {load : Int} {c : List Int} (combos : List (List Int))
    (h : load ≤ c.sum) : fitStep load (none, combos) c = (some c.sum, [c]) := by
  unfold fitStep
  simp [not_lt.mpr h]

theorem fitStep_lt {load m : Int} {c : List Int} (combos : List (List Int))
    (h : load ≤ c.sum) (h2 : c.sum < m) :
    fitStep load (some m, combos) c = (some c.sum, [c]) := by
  unfold fitStep
  simp [not_lt.mpr h, h2]

theorem fitStep_same {load m : Int} {c : List Int} (combos : List (List Int))
    (h : load ≤ c.sum) (h2 : m = c.sum) :
    fitStep load (some m, combos) c = (some m, combos ++ [c]) := by
  unfold fitStep
  simp [not_lt.mpr h, h2, lt_irrefl]

theorem fitStep_gt {load m : Int} {c : List Int} (combos : List (List Int))
    (h : load ≤ c.sum) (h2 : m < c.sum) :
    fitStep load (some m, combos) c = (some m, combos) := by
  unfold fitStep
  simp [not_lt.mpr h, not_lt.mpr h2.le, h2.ne]

theorem fitState_of_none {load : Int} {L : List (List Int)}
    (h : ((L.filter fun c => decide (load ≤ c.sum)).map List.sum).min? = none) :
    fitState load L = (none, []) := by
  rw [fitState, h]

theorem fitState_of_some {load m : Int} {L : List (List Int)}
    (h : ((L.filter fun c => decide (load ≤ c.sum)).map List.sum).min? = some m) :
    fitState load L =
      (some m,
       (L.filter fun c => decide (load ≤ c.sum)).filter
         fun c => decide (c.sum = m)) := by
  rw [fitState, h]

theorem fitState_concat (load : Int) (L : List (List Int)) (c : List Int) :
    fitState load (L ++ [c]) = fitStep load (fitState load L) c := by
  by_cases hc : load ≤ c.sum
  · have hfil : (L ++ [c]).filter (fun d => decide (load ≤ d.sum)) =
        L.filter (fun d => decide (load ≤ d.sum)) ++ [c] := by
      simp [List.filter_append, hc]
    cases hmin : ((L.filter fun d => decide (load ≤ d.sum)).map List.sum).min? with
    | none =>
      have hnil : L.filter (fun d => decide (load ≤ d.sum)) = [] := by
        have h0 := List.min?_eq_none_iff.mp hmin
        simpa using h0
      have hmin' : (((L ++ [c]).filter fun d =>
          decide (load ≤ d.sum)).map List.sum).min? = some c.sum := by
        rw [hfil, hnil]
        simp [List.min?_cons']
      rw [fitState_of_some hmin', fitState_of_none hmin, fitStep_first _ hc, hfil,
        hnil]
      simp
    | some m =>
      obtain ⟨hm_mem, hm_le⟩ := int_min?_eq_some_iff.mp hmin
      have hmin' : (((L ++ [c]).filter fun d =>
          decide (load ≤ d.sum)).map List.sum).min? = some (min m c.sum) := by
        rw [hfil, List.map_append]
        simp only [List.map_cons, List.map_nil]
        rw [int_min?_concat, hmin]
      rw [fitState_of_some hmin', fitState_of_some hmin, hfil, List.filter_append]
      rcases lt_trichotomy c.sum m with hlt | heq | hgt
      · have hminv : min m c.sum = c.sum := min_eq_right hlt.le
        have hempty : (L.filter fun d => decide (load ≤ d.sum)).filter
            (fun d => decide (d.sum = min m c.sum)) = [] := by
          rw [List.filter_eq_nil_iff]
          intro d hd
          have hle : m ≤ d.sum := hm_le _ (List.mem_map_of_mem List.sum hd)
          simp only [hminv, decide_eq_true_eq]
          omega
        rw [hempty, fitStep_lt _ hc hlt, hminv]
        simp
      · rw [fitStep_same _ hc heq.symm]
        have hminv : min m c.sum = m := min_eq_left heq.ge
        rw [hminv]
        simp [heq]
      · rw [fitStep_gt _ hc hgt]
        have hminv : min m c.sum = m := min_eq_left hgt.le
        rw [hminv]
        have hone : [c].filter (fun d => decide (d.sum = m)) = [] := by
          simp [hgt.ne']
        rw [hone, List.append_nil]
  · have hfil : (L ++ [c]).filter (fun d => decide (load ≤ d.sum)) =
        L.filter (fun d => decide (load ≤ d.sum)) := by
      simp [List.filter_append, hc]
    rw [fitStep_skip _ (not_le.mp hc), fitState, fitState, hfil]

theorem foldl_fitStep (load : Int) (L : List (List Int)) :
    L.foldl (fitStep load) (none, []) = fitState load L := by
  induction L using List.reverseRecOn with
  | nil => rfl
  | append_singleton L c ih =>
    rw [List.foldl_append, ih, List.foldl_cons, List.foldl_nil, fitState_concat]

/-- The engine, characterized: `fit_n_bins` returns exactly the qualifying
combinations achieving the minimal qualifying capacity, in scan order, and
`[]` when none qualify. -/
theorem fit_n_bins_eq (load : Int) (bins : List Int) (n : Nat) :
    fit_n_bins load bins n =
      match minQualCap load bins n with
      | none => []
      | some m =>
        ((cwr bins n).filter fun c => decide (load ≤ c.sum)).filter
          fun c => decide (c.sum = m) := by
  rw [fit_n_bins]
  rw [foldl_fitStep]
  rw [fitState]
  cases hmin : minQualCap load bins n with
  | none =>
    rw [minQualCap, qualCaps] at hmin
    rw [hmin]
  | some m =>
    rw [minQualCap, qualCaps] at hmin
    rw [hmin]
    obtain ⟨hm_mem, _⟩ := int_min?_eq_some_iff.mp hmin
    obtain ⟨d, hd, rfl⟩ := List.mem_map.mp hm_mem
    have : load ≤ d.sum := by
      have := (List.mem_filter.mp hd).2
      simpa using this
    simp [this]

theorem fit_of_none {load : Int} {bins : List Int} {n : Nat}
    (h : minQualCap load bins n = none) : fit_n_bins load bins n = [] := by
  rw [fit_n_bins_eq, h]

theorem fit_of_some {load m : Int} {bins : List Int} {n : Nat}
    (h : minQualCap load bins n = some m) :
    fit_n_bins load bins n =
      ((cwr bins n).filter fun c => decide (load ≤ c.sum)).filter
        fun c => decide (c.sum = m) := by
  rw [fit_n_bins_eq, h]

theorem mem_fit {load : Int} {bins : List Int} {n : Nat} {c : List Int}
    (h : c ∈ fit_n_bins load bins n) :
    c ∈ cwr bins n ∧ load ≤ c.sum ∧ minQualCap load bins n = some c.sum := by
  cases hm : minQualCap load bins n with
  | none =>
    rw [fit_of_none hm] at h
    simp at h
  | some m =>
    rw [fit_of_some hm] at h
    have h1 := List.mem_filter.mp h
    have h2 := List.mem_filter.mp h1.1
    have hsum : c.sum = m := by simpa using h1.2
    exact ⟨h2.1, by simpa using h2.2, by simp [hm, hsum]⟩

theorem fit_ne_nil_of_some {load m : Int} {bins : List Int} {n : Nat}
    (hm : minQualCap load bins n = some m) : fit_n_bins load bins n ≠ [] := by
  rw [minQualCap] at hm
  obtain ⟨hmem, _⟩ := int_min?_eq_some_iff.mp hm
  rw [qualCaps] at hmem
  obtain ⟨d, hd, hdsum⟩ := List.mem_map.mp hmem
  have hdfit : d ∈ fit_n_bins load bins n := by
    rw [fit_of_some (by rw [minQualCap]; exact hm)]
    exact List.mem_filter.mpr ⟨hd, by simp [hdsum]⟩
  exact List.ne_nil_of_mem hdfit

theorem fit_eq_nil_iff {load : Int} {bins : List Int} {n : Nat} :
    fit_n_bins load bins n = [] ↔ minQualCap load bins n = none := by
  constructor
  · intro h
    cases hm : minQualCap load bins n with
    | none => rfl
    | some m => exact absurd h (fit_ne_nil_of_some hm)
  · exact fit_of_none

theorem headD_sum_of_fit_ne_nil {load : Int} {bins : List Int} {n : Nat}
    (h : fit_n_bins load bins n ≠ []) :
    minQualCap load bins n = some (((fit_n_bins load bins n).headD []).sum) := by
  cases hfit : fit_n_bins load bins n with
  | nil => exact absurd hfit h
  | cons c rest =>
    have hc : c ∈ fit_n_bins load bins n := by
      rw [hfit]
      exact List.mem_cons_self c rest
    simpa using (mem_fit hc).2.2

theorem fit_ne_nil_of_qual {load : Int} {bins : List Int} {n : Nat} {c : List Int}
    (hc : c ∈ cwr bins n) (hq : load ≤ c.sum) : fit_n_bins load bins n ≠ [] := by
  intro h
  have hm := fit_eq_nil_iff.mp h
  rw [minQualCap, List.min?_eq_none_iff] at hm
  have hmem : c.sum ∈ qualCaps load bins n := by
    rw [qualCaps]
    exact List.mem_map_of_mem _ (List.mem_filter.mpr ⟨hc, by simp [hq]⟩)
  rw [hm] at hmem
  simp at hmem

theorem lengthAux_some (load : Int) (bins : List Int) :
    ∀ (fuel n : Nat) (r : List (List Int)),
      SolverLengthFirst.solveAux load bins fuel n = some r →
      ∃ m, n < m ∧ r = fit_n_bins load bins m ∧ fit_n_bins load bins m ≠ [] ∧
        ∀ k, n < k → k < m → fit_n_bins load bins k = [] := by
  intro fuel
  induction fuel with
  | zero =>
    intro n r h
    simp [SolverLengthFirst.solveAux] at h
  | succ fuel ih =>
    intro n r h
    have h' : (if fit_n_bins load bins (n + 1) = [] then
        SolverLengthFirst.solveAux load bins fuel (n + 1)
      else some (fit_n_bins load bins (n + 1))) = some r := h
    by_cases hfit : fit_n_bins load bins (n + 1) = []
    · rw [if_pos hfit] at h'
      obtain ⟨m, hm1, hm2, hm3, hm4⟩ := ih (n + 1) r h'
      refine ⟨m, by omega, hm2, hm3, fun k hk1 hk2 => ?_⟩
      rcases Nat.lt_or_ge k (n + 2) with hk | hk
      · have : k = n + 1 := by omega
        rw [this]
        exact hfit
      · exact hm4 k (by omega) hk2
    · rw [if_neg hfit] at h'
      refine ⟨n + 1, by omega, (Option.some.injEq _ _ ▸ h').symm, hfit,
        fun k hk1 hk2 => by omega⟩

theorem lengthAux_reaches (load : Int) (bins : List Int) :
    ∀ (d n m : Nat), m = n + d + 1 →
      (∀ k, n < k → k < m → fit_n_bins load bins k = []) →
      fit_n_bins load bins m ≠ [] →
      SolverLengthFirst.solveAux load bins (d + 1) n =
        some (fit_n_bins load bins m) := by
  intro d
  induction d with
  | zero =>
    intro n m hm hempty hne
    have hm' : m = n + 1 := by omega
    subst hm'
    show (if fit_n_bins load bins (n + 1) = [] then
        SolverLengthFirst.solveAux load bins 0 (n + 1)
      else some (fit_n_bins load bins (n + 1))) = _
    rw [if_neg hne]
  | succ d ih =>
    intro n m hm hempty hne
    show (if fit_n_bins load bins (n + 1) = [] then
        SolverLengthFirst.solveAux load bins (d + 1) (n + 1)
      else some (fit_n_bins load bins (n + 1))) = _
    rw [if_pos (hempty (n + 1) (by omega) (by omega))]
    exact ih (n + 1) m (by omega) (fun k hk1 hk2 => hempty k (by omega) hk2) hne

theorem capacityAux_some (load : Int) (bins : List Int) :
    ∀ (fuel n : Nat) (r : List (List Int)),
      SolverCapacityFirst.solveAux load bins fuel n = some r →
      ∃ m, n < m ∧ r = fit_n_bins load bins m ∧ fit_n_bins load bins m ≠ [] ∧
        ((fit_n_bins load bins m).headD []).sum = load ∧
        ∀ k, n < k → k < m → (fit_n_bins load bins k = [] ∨
          ((fit_n_bins load bins k).headD []).sum ≠ load) := by
  intro fuel
  induction fuel with
  | zero =>
    intro n r h
    simp [SolverCapacityFirst.solveAux] at h
  | succ fuel ih =>
    intro n r h
    cases hfit : fit_n_bins load bins (n + 1) with
    | nil =>
      have h' : SolverCapacityFirst.solveAux load bins fuel (n + 1) = some r := by
        rw [SolverCapacityFirst.solveAux, hfit] at h
        exact h
      obtain ⟨m, hm1, hm2, hm3, hm4, hm5⟩ := ih (n + 1) r h'
      refine ⟨m, by omega, hm2, hm3, hm4, fun k hk1 hk2 => ?_⟩
      rcases Nat.lt_or_ge k (n + 2) with hk | hk
      · have : k = n + 1 := by omega
        rw [this]
        exact Or.inl hfit
      · exact hm5 k (by omega) hk2
    | cons c rest =>
      have h' : (if c.sum = load then some (c :: rest)
          else SolverCapacityFirst.solveAux load bins fuel (n + 1)) = some r := by
        rw [SolverCapacityFirst.solveAux, hfit] at h
        exact h
      by_cases hsum : c.sum = load
      · rw [if_pos hsum] at h'
        have hr : r = fit_n_bins load bins (n + 1) := by
          rw [hfit]
          exact (Option.some.injEq _ _ ▸ h').symm
        refine ⟨n + 1, by omega, hr, by rw [hfit]; simp, by rw [hfit]; simpa, ?_⟩
        intro k hk1 hk2
        omega
      · rw [if_neg hsum] at h'
        obtain ⟨m, hm1, hm2, hm3, hm4, hm5⟩ := ih (n + 1) r h'
        refine ⟨m, by omega, hm2, hm3, hm4, fun k hk1 hk2 => ?_⟩
        rcases Nat.lt_or_ge k (n + 2) with hk | hk
        · have : k = n + 1 := by omega
          rw [this, hfit]
          right
          simpa using hsum
        · exact hm5 k (by omega) hk2

theorem capacityAux_none (load : Int) (bins : List Int)
    (h : ∀ n, 0 < n → ∀ c ∈ cwr bins n, c.sum ≠ load) :
    ∀ (fuel n : Nat), SolverCapacityFirst.solveAux load bins fuel n = none := by
  intro fuel
  induction fuel with
  | zero =>
    intro n
    rfl
  | succ fuel ih =>
    intro n
    cases hfit : fit_n_bins load bins (n + 1) with
    | nil =>
      show (match fit_n_bins load bins (n + 1) with
        | [] => SolverCapacityFirst.solveAux load bins fuel (n + 1)
        | c :: rest =>
          if c.sum = load then some (c :: rest)
          else SolverCapacityFirst.solveAux load bins fuel (n + 1)) = none
      rw [hfit]
      exact ih (n + 1)
    | cons c rest =>
      have hc : c ∈ fit_n_bins load bins (n + 1) := by
        rw [hfit]
        exact List.mem_cons_self c rest
      have hcsum : c.sum ≠ load := h (n + 1) (by omega) c (mem_fit hc).1
      show (match fit_n_bins load bins (n + 1) with
        | [] => SolverCapacityFirst.solveAux load bins fuel (n + 1)
        | c :: rest =>
          if c.sum = load then some (c :: rest)
          else SolverCapacityFirst.solveAux load bins fuel (n + 1)) = none
      rw [hfit]
      show (if c.sum = load then some (c :: rest)
        else SolverCapacityFirst.solveAux load bins fuel (n + 1)) = none
      rw [if_neg hcsum]
      exact ih (n + 1)

theorem comboAux_some (load : Int) (bins : List Int) :
    ∀ (fuel n : Nat) (r : List (List Int)),
      SolverCombo.solveAux load bins fuel n (fit_n_bins load bins n) = some r →
      ∃ m, n ≤ m ∧ fit_n_bins load bins m ≠ [] ∧
        fit_n_bins load bins (m + 1) ≠ [] ∧
        (∀ k, n ≤ k → k < m →
          (fit_n_bins load bins k = [] ∨ fit_n_bins load bins (k + 1) = [])) ∧
        r = if ((fit_n_bins load bins (m + 1)).headD []).sum <
              ((fit_n_bins load bins m).headD []).sum
            then fit_n_bins load bins (m + 1) else fit_n_bins load bins m := by
  intro fuel
  induction fuel with
  | zero =>
    intro n r h
    simp [SolverCombo.solveAux] at h
  | succ fuel ih =>
    intro n r h
    have h' : (if fit_n_bins load bins n = [] ∨ fit_n_bins load bins (n + 1) = []
        then SolverCombo.solveAux load bins fuel (n + 1) (fit_n_bins load bins (n + 1))
        else if ((fit_n_bins load bins (n + 1)).headD []).sum <
            ((fit_n_bins load bins n).headD []).sum
          then some (fit_n_bins load bins (n + 1))
          else some (fit_n_bins load bins n)) = some r := h
    by_cases hcond : fit_n_bins load bins n = [] ∨ fit_n_bins load bins (n + 1) = []
    · rw [if_pos hcond] at h'
      obtain ⟨m, hm1, hm2, hm3, hm4, hm5⟩ := ih (n + 1) r h'
      refine ⟨m, by omega, hm2, hm3, fun k hk1 hk2 => ?_, hm5⟩
      rcases Nat.lt_or_ge k (n + 1) with hk | hk
      · have : k = n := by omega
        rw [this]
        exact hcond
      · exact hm4 k hk hk2
    · rw [if_neg hcond] at h'
      push_neg at hcond
      by_cases hlt : ((fit_n_bins load bins (n + 1)).headD []).sum <
          ((fit_n_bins load bins n).headD []).sum
      · rw [if_pos hlt] at h'
        exact ⟨n, le_refl n, hcond.1, hcond.2, fun k hk1 hk2 => by omega,
          by rw [if_pos hlt]; exact (Option.some.injEq _ _ ▸ h').symm⟩
      · rw [if_neg hlt] at h'
        exact ⟨n, le_refl n, hcond.1, hcond.2, fun k hk1 hk2 => by omega,
          by rw [if_neg hlt]; exact (Option.some.injEq _ _ ▸ h').symm⟩

theorem comboAux_reaches (load : Int) (bins : List Int) :
    ∀ (d n m : Nat), m = n + d →
      (∀ k, n ≤ k → k < m →
        (fit_n_bins load bins k = [] ∨ fit_n_bins load bins (k + 1) = [])) →
      fit_n_bins load bins m ≠ [] → fit_n_bins load bins (m + 1) ≠ [] →
      SolverCombo.solveAux load bins (d + 1) n (fit_n_bins load bins n) =
        some (if ((fit_n_bins load bins (m + 1)).headD []).sum <
              ((fit_n_bins load bins m).headD []).sum
            then fit_n_bins load bins (m + 1) else fit_n_bins load bins m) := by
  intro d
  induction d with
  | zero =>
    intro n m hm hskip hne1 hne2
    have hm' : m = n := by omega
    subst hm'
    show (if fit_n_bins load bins m = [] ∨ fit_n_bins load bins (m + 1) = []
        then SolverCombo.solveAux load bins 0 (m + 1) (fit_n_bins load bins (m + 1))
        else if ((fit_n_bins load bins (m + 1)).headD []).sum <
            ((fit_n_bins load bins m).headD []).sum
          then some (fit_n_bins load bins (m + 1))
          else some (fit_n_bins load bins m)) = _
    rw [if_neg (by push_neg; exact ⟨hne1, hne2⟩)]
    split <;> rfl
  | succ d ih =>
    intro n m hm hskip hne1 hne2
    show (if fit_n_bins load bins n = [] ∨ fit_n_bins load bins (n + 1) = []
        then SolverCombo.solveAux load bins (d + 1) (n + 1)
          (fit_n_bins load bins (n + 1))
        else if ((fit_n_bins load bins (n + 1)).headD []).sum <
            ((fit_n_bins load bins n).headD []).sum
          then some (fit_n_bins load bins (n + 1))
          else some (fit_n_bins load bins n)) = _
    rw [if_pos (hskip n (le_refl n) (by omega))]
    exact ih (n + 1) m (by omega) (fun k hk1 hk2 => hskip k (by omega) hk2) hne1 hne2

theorem fit_ne_nil_succ {load : Int} {bins : List Int}
    (hne : bins ≠ []) (hpos : ∀ b ∈ bins, 0 < b) {n : Nat}
    (h : fit_n_bins load bins n ≠ []) : fit_n_bins load bins (n + 1) ≠ [] := by
  cases bins with
  | nil => exact absurd rfl hne
  | cons x xs =>
    cases hfit : fit_n_bins load (x :: xs) n with
    | nil => exact absurd hfit h
    | cons c rest =>
      have hc : c ∈ fit_n_bins load (x :: xs) n := by
        rw [hfit]
        exact List.mem_cons_self c rest
      obtain ⟨hcwr, hq, _⟩ := mem_fit hc
      have hx : 0 < x := hpos x (List.mem_cons_self x xs)
      refine fit_ne_nil_of_qual (cons_mem_cwr hcwr) ?_
      rw [List.sum_cons]
      omega

theorem fit_exists_ne_nil {load : Int} {bins : List Int}
    (hne : bins ≠ []) (hpos : ∀ b ∈ bins, 0 < b) :
    ∃ k : Nat, fit_n_bins load bins (k + 1) ≠ [] := by
  cases bins with
  | nil => exact absurd rfl hne
  | cons x xs =>
    have hx : 0 < x := hpos x (List.mem_cons_self x xs)
    refine ⟨load.toNat, fit_ne_nil_of_qual (replicate_mem_cwr x xs (load.toNat + 1)) ?_⟩
    rw [List.sum_replicate, nsmul_eq_mul]
    have h1 : (1 : Int) ≤ x := hx
    have h2 : ((load.toNat + 1 : Nat) : Int) * 1 ≤ ((load.toNat + 1 : Nat) : Int) * x :=
      mul_le_mul_of_nonneg_left h1 (by positivity)
    have h3 : load ≤ ((load.toNat : Nat) : Int) := Int.self_le_toNat load
    push_cast at h2 ⊢
    omega

theorem sum_eq_headD_sum_of_mem_fit {load : Int} {bins : List Int} {j : Nat}
    {c : List Int} (hc : c ∈ fit_n_bins load bins j) :
    c.sum = ((fit_n_bins load bins j).headD []).sum := by
  have hne : fit_n_bins load bins j ≠ [] := List.ne_nil_of_mem hc
  have h1 := (mem_fit hc).2.2
  have h2 := headD_sum_of_fit_ne_nil hne
  rw [h1] at h2
  exact Option.some.inj h2

/-- C1: for every load, bins, and positive length `n`, `fit_n_bins` returns
exactly the length-`n` combinations-with-replacement drawn from `bins` whose
capacity is `≥ load` and equal to the minimum such capacity (all ties
retained, in enumeration order), and returns `[]` when no length-`n`
combination has capacity `≥ load`. -/
theorem claim_C1 (load : Int) (bins : List Int) (n : Nat) (hn : 0 < n) :
    fit_n_bins load bins n =
      match minQualCap load bins n with
      | none => []
      | some m =>
        ((cwr bins n).filter fun c => decide (load ≤ c.sum)).filter
          fun c => decide (c.sum = m) :=
  fit_n_bins_eq load bins n

theorem claim_C1_witness :
    fit_n_bins 9 [2, 3, 5] 3 =
      match minQualCap 9 [2, 3, 5] 3 with
      | none => []
      | some m =>
        ((cwr [2, 3, 5] 3).filter fun c => decide ((9 : Int) ≤ c.sum)).filter
          fun c => decide (c.sum = m) :=
  claim_C1 9 [2, 3, 5] 3 (by decide)

theorem solve_result_is_fit {load : Int} {bins : List Int} {fuel : Nat}
    {r : List (List Int)}
    (h : SolverLengthFirst.solve load bins fuel = some r ∨
         SolverCapacityFirst.solve load bins fuel = some r ∨
         SolverCombo.solve load bins fuel = some r) :
    ∃ n, r = fit_n_bins load bins n := by
  rcases h with h | h | h
  · obtain ⟨m, _, hm2, _, _⟩ := lengthAux_some load bins fuel 0 r h
    exact ⟨m, hm2⟩
  · obtain ⟨m, _, hm2, _, _, _⟩ := capacityAux_some load bins fuel 0 r h
    exact ⟨m, hm2⟩
  · obtain ⟨m, _, _, _, _, hm5⟩ := comboAux_some load bins fuel 1 r h
    by_cases hlt : ((fit_n_bins load bins (m + 1)).headD []).sum <
        ((fit_n_bins load bins m).headD []).sum
    · rw [if_pos hlt] at hm5
      exact ⟨m + 1, hm5⟩
    · rw [if_neg hlt] at hm5
      exact ⟨m, hm5⟩

/-- C2: whenever any of the three strategies returns a result, all
combinations in it have identical length and identical total capacity, and
that capacity is `≥ load`. -/
theorem claim_C2 (load : Int) (bins : List Int) (fuel : Nat) (r : List (List Int))
    (h : SolverLengthFirst.solve load bins fuel = some r ∨
         SolverCapacityFirst.solve load bins fuel = some r ∨
         SolverCombo.solve load bins fuel = some r) :
    (∀ c ∈ r, ∀ c' ∈ r, c.length = c'.length ∧ c.sum = c'.sum) ∧
    ∀ c ∈ r, load ≤ c.sum := by
  obtain ⟨n, rfl⟩ := solve_result_is_fit h
  constructor
  · intro c hc c' hc'
    obtain ⟨hcw, _, hcm⟩ := mem_fit hc
    obtain ⟨hcw', _, hcm'⟩ := mem_fit hc'
    refine ⟨?_, ?_⟩
    · rw [length_of_mem_cwr hcw, length_of_mem_cwr hcw']
    · rw [hcm] at hcm'
      exact Option.some.inj hcm'
  · intro c hc
    exact (mem_fit hc).2.1

theorem claim_C2_witness :
    ((∀ c ∈ [[(5 : Int), 5]], ∀ c' ∈ [[(5 : Int), 5]],
        c.length = c'.length ∧ c.sum = c'.sum) ∧
      ∀ c ∈ [[(5 : Int), 5]], (9 : Int) ≤ c.sum) :=
  claim_C2 9 [2, 3, 5] 2 [[5, 5]] (Or.inl (by decide))

/-- C3: for positive non-empty bins, the length-first solver terminates
(some fuel suffices) and returns `fit_n_bins load bins n` for the minimum
positive `n` at which `fit_n_bins` is non-empty. -/
theorem claim_C3 (load : Int) (bins : List Int) (hne : bins ≠ [])
    (hpos : ∀ b ∈ bins, 0 < b) :
    ∃ (fuel n : Nat), 0 < n ∧
      SolverLengthFirst.solve load bins fuel = some (fit_n_bins load bins n) ∧
      fit_n_bins load bins n ≠ [] ∧
      ∀ k, 0 < k → k < n → fit_n_bins load bins k = [] := by
  have hex : ∃ k, fit_n_bins load bins (k + 1) ≠ [] := fit_exists_ne_nil hne hpos
  have hmin : ∀ k, 0 < k → k < Nat.find hex + 1 → fit_n_bins load bins k = [] := by
    intro k hk1 hk2
    have hlt : k - 1 < Nat.find hex := by omega
    have hk0 := Nat.find_min hex hlt
    rw [not_not] at hk0
    have hk : k - 1 + 1 = k := by omega
    rwa [hk] at hk0
  refine ⟨Nat.find hex + 1, Nat.find hex + 1, by omega, ?_, Nat.find_spec hex, hmin⟩
  exact lengthAux_reaches load bins (Nat.find hex) 0 (Nat.find hex + 1) (by omega)
    (fun k hk1 hk2 => hmin k hk1 hk2) (Nat.find_spec hex)

theorem claim_C3_witness :
    ∃ (fuel n : Nat), 0 < n ∧
      SolverLengthFirst.solve 6 [2, 3, 5] fuel = some (fit_n_bins 6 [2, 3, 5] n) ∧
      fit_n_bins 6 [2, 3, 5] n ≠ [] ∧
      ∀ k, 0 < k → k < n → fit_n_bins 6 [2, 3, 5] k = [] :=
  claim_C3 6 [2, 3, 5] (by decide) (by decide)

/-- C4: if the capacity-first solver returns a result, every combination in
it sums exactly to the load, and the result is `fit_n_bins` at the smallest
positive length whose minimal qualifying capacity equals the load. -/
theorem claim_C4 (load : Int) (bins : List Int) (fuel : Nat) (r : List (List Int))
    (h : SolverCapacityFirst.solve load bins fuel = some r) :
    (∀ c ∈ r, c.sum = load) ∧
    ∃ n, 0 < n ∧ r = fit_n_bins load bins n ∧
      minQualCap load bins n = some load ∧
      ∀ k, 0 < k → k < n → minQualCap load bins k ≠ some load := by
  obtain ⟨m, hm1, hm2, hm3, hm4, hm5⟩ := capacityAux_some load bins fuel 0 r h
  have hminq : minQualCap load bins m = some load := by
    have hh := headD_sum_of_fit_ne_nil hm3
    rw [hm4] at hh
    exact hh
  constructor
  · intro c hc
    rw [hm2] at hc
    have hcm := (mem_fit hc).2.2
    rw [hminq] at hcm
    exact (Option.some.inj hcm).symm
  · refine ⟨m, by omega, hm2, hminq, ?_⟩
    intro k hk1 hk2
    rcases hm5 k (by omega) hk2 with hnil | hhead
    · rw [fit_eq_nil_iff.mp hnil]
      simp
    · by_cases hknil : fit_n_bins load bins k = []
      · rw [fit_eq_nil_iff.mp hknil]
        simp
      · rw [headD_sum_of_fit_ne_nil hknil]
        exact fun heq => hhead (Option.some.inj heq)

theorem claim_C4_witness :
    (∀ c ∈ [[(2 : Int), 2, 5], [3, 3, 3]], c.sum = (9 : Int)) ∧
    ∃ n, 0 < n ∧ ([[(2 : Int), 2, 5], [3, 3, 3]]) = fit_n_bins 9 [2, 3, 5] n ∧
      minQualCap 9 [2, 3, 5] n = some 9 ∧
      ∀ k, 0 < k → k < n → minQualCap 9 [2, 3, 5] k ≠ some 9 :=
  claim_C4 9 [2, 3, 5] 3 [[2, 2, 5], [3, 3, 3]] (by decide)

/-- C5: when no combination-with-replacement of any positive length sums
exactly to the load, the capacity-first solver's loop returns nothing for
every fuel bound (the loop never halts). -/
theorem claim_C5 (load : Int) (bins : List Int)
    (h : ∀ n, 0 < n → ∀ c ∈ cwr bins n, c.sum ≠ load) :
    ∀ fuel, SolverCapacityFirst.solve load bins fuel = none :=
  fun fuel => capacityAux_none load bins h fuel 0

theorem claim_C5_witness :
    SolverCapacityFirst.solve 1 [2] 5 = none :=
  claim_C5 1 [2] (by
    intro n hn c hc
    have hlen := length_of_mem_cwr hc
    have hrep : c = List.replicate n 2 := by
      rw [List.eq_replicate_iff]
      exact ⟨hlen, fun b hb => by simpa using mem_of_mem_cwr hc hb⟩
    rw [hrep, List.sum_replicate, nsmul_eq_mul]
    omega) 5

/-- C6: when the combo solver's scan reaches consecutive lengths `n`, `n+1`
with both results non-empty (no earlier consecutive feasible pair exists),
it returns the `n+1` result if the capacity of its first combination is
strictly lower than that of the `n` result's first combination, and
otherwise the `n` result. -/
theorem claim_C6 (load : Int) (bins : List Int) (n : Nat) (hn : 0 < n)
    (hskip : ∀ k, 0 < k → k < n →
      (fit_n_bins load bins k = [] ∨ fit_n_bins load bins (k + 1) = []))
    (h1 : fit_n_bins load bins n ≠ []) (h2 : fit_n_bins load bins (n + 1) ≠ []) :
    ∃ fuel, SolverCombo.solve load bins fuel =
      some (if ((fit_n_bins load bins (n + 1)).headD []).sum <
            ((fit_n_bins load bins n).headD []).sum
          then fit_n_bins load bins (n + 1) else fit_n_bins load bins n) := by
  refine ⟨n, ?_⟩
  have hres := comboAux_reaches load bins (n - 1) 1 n (by omega)
    (fun k hk1 hk2 => hskip k (by omega) hk2) h1 h2
  have hfuel : n - 1 + 1 = n := by omega
  rw [hfuel] at hres
  exact hres

theorem claim_C6_witness :
    ∃ fuel, SolverCombo.solve 9 [2, 3, 5] fuel =
      some (if ((fit_n_bins 9 [2, 3, 5] 3).headD []).sum <
            ((fit_n_bins 9 [2, 3, 5] 2).headD []).sum
          then fit_n_bins 9 [2, 3, 5] 3 else fit_n_bins 9 [2, 3, 5] 2) :=
  claim_C6 9 [2, 3, 5] 2 (by decide)
    (by
      intro k hk1 hk2
      have hk : k = 1 := by omega
      subst hk
      left
      decide)
    (by decide) (by decide)

/-- C7: for positive non-empty bins, whenever the combo solver and the
length-first solver both return, every combination returned by combo has
total capacity at most that of every combination returned by length-first. -/
theorem claim_C7 (load : Int) (bins : List Int) (hne : bins ≠ [])
    (hpos : ∀ b ∈ bins, 0 < b) (fuel1 fuel2 : Nat) (r1 r2 : List (List Int))
    (h1 : SolverCombo.solve load bins fuel1 = some r1)
    (h2 : SolverLengthFirst.solve load bins fuel2 = some r2) :
    ∀ c ∈ r1, ∀ c' ∈ r2, c.sum ≤ c'.sum := by
  obtain ⟨m, hm1, hm2, hm3, hm4, hm5⟩ := comboAux_some load bins fuel1 1 r1 h1
  obtain ⟨p, hp1, hp2, hp3, hp4⟩ := lengthAux_some load bins fuel2 0 r2 h2
  have hmp : p ≤ m := by
    by_contra hcon
    push_neg at hcon
    exact hm2 (hp4 m (by omega) hcon)
  have hm_eq : m = p := by
    by_contra hne'
    have hplt : p < m := by omega
    rcases hm4 p (by omega) hplt with hnil | hnil
    · exact hp3 hnil
    · exact (fit_ne_nil_succ hne hpos hp3) hnil
  subst hm_eq
  intro c hc c' hc'
  rw [hp2] at hc'
  have hc'head := sum_eq_headD_sum_of_mem_fit hc'
  rw [hm5] at hc
  by_cases hlt : ((fit_n_bins load bins (m + 1)).headD []).sum <
      ((fit_n_bins load bins m).headD []).sum
  · rw [if_pos hlt] at hc
    have hchead := sum_eq_headD_sum_of_mem_fit hc
    omega
  · rw [if_neg hlt] at hc
    have hchead := sum_eq_headD_sum_of_mem_fit hc
    omega

/-- A combination viewed as the multiset of its capacities (the spec's
"conceptually a multiset" reading of a tuple). -/
def toMul (c : List Int) : Multiset Int := (c : Multiset Int)

theorem toMul_sum (c : List Int) : (toMul c).sum = c.sum :=
  Multiset.sum_coe c

/-- The multiset of combination-multisets enumerated by `cwr`. -/
def cwrM (l : List Int) (n : Nat) : Multiset (Multiset Int) :=
  (((cwr l n).map toMul : List (Multiset Int)) : Multiset (Multiset Int))

theorem cwrM_zero (l : List Int) : cwrM l 0 = {0} := rfl

theorem cwrM_nil (n : Nat) : cwrM [] (n + 1) = 0 := rfl

theorem cwrM_cons (x : Int) (xs : List Int) (n : Nat) :
    cwrM (x :: xs) (n + 1) =
      (cwrM (x :: xs) n).map (fun s => x ::ₘ s) + cwrM xs (n + 1) := by
  show (((cwr (x :: xs) (n + 1)).map toMul : List (Multiset Int)) :
      Multiset (Multiset Int)) = _
  rw [cwr_cons, List.map_append, ← Multiset.coe_add]
  unfold cwrM
  rw [Multiset.map_coe]
  congr 1
  rw [List.map_map, List.map_map]
  congr 1

theorem map_cons_comm (x y : Int) (s : Multiset (Multiset Int)) :
    (s.map fun t => y ::ₘ t).map (fun t => x ::ₘ t) =
      (s.map fun t => x ::ₘ t).map (fun t => y ::ₘ t) := by
  rw [Multiset.map_map, Multiset.map_map]
  apply Multiset.map_congr rfl
  intro t _
  exact Multiset.cons_swap x y t

theorem cwrM_swap (x y : Int) (l : List Int) : ∀ n : Nat,
    cwrM (x :: y :: l) n = cwrM (y :: x :: l) n ∧
    (cwrM (x :: y :: l) n).map (fun s => x ::ₘ s) +
        (cwrM (y :: l) n).map (fun s => y ::ₘ s) =
      (cwrM (y :: x :: l) n).map (fun s => y ::ₘ s) +
        (cwrM (x :: l) n).map (fun s => x ::ₘ s) := by
  intro n
  induction n with
  | zero =>
    refine ⟨rfl, ?_⟩
    rw [cwrM_zero, cwrM_zero, cwrM_zero, cwrM_zero]
    simp only [Multiset.map_singleton]
    exact add_comm _ _
  | succ n ih =>
    obtain ⟨ihP, ihG⟩ := ih
    have gx : ((cwrM (x :: y :: l) n).map (fun s => x ::ₘ s)).map (fun s => x ::ₘ s) +
          ((cwrM (y :: l) n).map (fun s => y ::ₘ s)).map (fun s => x ::ₘ s) =
        ((cwrM (y :: x :: l) n).map (fun s => y ::ₘ s)).map (fun s => x ::ₘ s) +
          ((cwrM (x :: l) n).map (fun s => x ::ₘ s)).map (fun s => x ::ₘ s) := by
      have h0 := congrArg (Multiset.map fun s => x ::ₘ s) ihG
      simpa [Multiset.map_add] using h0
    have gy : ((cwrM (y :: x :: l) n).map (fun s => x ::ₘ s)).map (fun s => y ::ₘ s) +
          ((cwrM (y :: l) n).map (fun s => y ::ₘ s)).map (fun s => y ::ₘ s) =
        ((cwrM (y :: x :: l) n).map (fun s => y ::ₘ s)).map (fun s => y ::ₘ s) +
          ((cwrM (x :: l) n).map (fun s => x ::ₘ s)).map (fun s => y ::ₘ s) := by
      have h0 := congrArg (Multiset.map fun s => y ::ₘ s) ihG
      rw [ihP] at h0
      simpa [Multiset.map_add] using h0
    constructor
    · rw [cwrM_cons x (y :: l) n, cwrM_cons y (x :: l) n, cwrM_cons y l n,
        cwrM_cons x l n, ← add_assoc, ← add_assoc, ihG]
    · rw [cwrM_cons x (y :: l) n, cwrM_cons y (x :: l) n, cwrM_cons y l n,
        cwrM_cons x l n]
      simp only [Multiset.map_add]
      calc ((cwrM (x :: y :: l) n).map fun s => x ::ₘ s).map (fun s => x ::ₘ s) +
            (((cwrM (y :: l) n).map fun s => y ::ₘ s).map (fun s => x ::ₘ s) +
              (cwrM l (n + 1)).map (fun s => x ::ₘ s)) +
            (((cwrM (y :: l) n).map fun s => y ::ₘ s).map (fun s => y ::ₘ s) +
              (cwrM l (n + 1)).map (fun s => y ::ₘ s))
          = (((cwrM (x :: y :: l) n).map fun s => x ::ₘ s).map (fun s => x ::ₘ s) +
              ((cwrM (y :: l) n).map fun s => y ::ₘ s).map (fun s => x ::ₘ s)) +
            (((cwrM (y :: l) n).map fun s => y ::ₘ s).map (fun s => y ::ₘ s) +
              ((cwrM l (n + 1)).map (fun s => x ::ₘ s) +
                (cwrM l (n + 1)).map (fun s => y ::ₘ s))) := by
            abel
        _ = (((cwrM (y :: x :: l) n).map fun s => y ::ₘ s).map (fun s => x ::ₘ s) +
              ((cwrM (x :: l) n).map fun s => x ::ₘ s).map (fun s => x ::ₘ s)) +
            (((cwrM (y :: l) n).map fun s => y ::ₘ s).map (fun s => y ::ₘ s) +
              ((cwrM l (n + 1)).map (fun s => x ::ₘ s) +
                (cwrM l (n + 1)).map (fun s => y ::ₘ s))) := by
            rw [gx]
        _ = (((cwrM (y :: x :: l) n).map fun s => x ::ₘ s).map (fun s => y ::ₘ s) +
              ((cwrM (y :: l) n).map fun s => y ::ₘ s).map (fun s => y ::ₘ s)) +
            (((cwrM (x :: l) n).map fun s => x ::ₘ s).map (fun s => x ::ₘ s) +
              ((cwrM l (n + 1)).map (fun s => x ::ₘ s) +
                (cwrM l (n + 1)).map (fun s => y ::ₘ s))) := by
            rw [map_cons_comm]
            abel
        _ = (((cwrM (y :: x :: l) n).map fun s => y ::ₘ s).map (fun s => y ::ₘ s) +
              ((cwrM (x :: l) n).map fun s => x ::ₘ s).map (fun s => y ::ₘ s)) +
            (((cwrM (x :: l) n).map fun s => x ::ₘ s).map (fun s => x ::ₘ s) +
              ((cwrM l (n + 1)).map (fun s => x ::ₘ s) +
                (cwrM l (n + 1)).map (fun s => y ::ₘ s))) := by
            rw [gy]
        _ = ((cwrM (y :: x :: l) n).map fun s => y ::ₘ s).map (fun s => y ::ₘ s) +
            (((cwrM (x :: l) n).map fun s => x ::ₘ s).map (fun s => y ::ₘ s) +
              (cwrM l (n + 1)).map (fun s => y ::ₘ s)) +
            (((cwrM (x :: l) n).map fun s => x ::ₘ s).map (fun s => x ::ₘ s) +
              (cwrM l (n + 1)).map (fun s => x ::ₘ s)) := by
            abel

theorem cwrM_perm {l l' : List Int} (h : l.Perm l') : ∀ n : Nat,
    cwrM l n = cwrM l' n := by
  induction h with
  | nil => intro n; rfl
  | cons x h ih =>
    intro n
    induction n with
    | zero => rw [cwrM_zero, cwrM_zero]
    | succ n ihn => rw [cwrM_cons, cwrM_cons, ihn, ih (n + 1)]
  | swap x y l =>
    intro n
    exact ((cwrM_swap x y l n).1).symm
  | trans h1 h2 ih1 ih2 =>
    intro n
    rw [ih1 n, ih2 n]

theorem int_min?_perm {xs ys : List Int} (h : xs.Perm ys) : xs.min? = ys.min? := by
  cases hm : xs.min? with
  | none =>
    rw [List.min?_eq_none_iff] at hm
    subst hm
    have hy : ys = [] := h.symm.eq_nil
    rw [hy]
    rfl
  | some m =>
    rw [int_min?_eq_some_iff] at hm
    symm
    rw [int_min?_eq_some_iff]
    exact ⟨h.mem_iff.mp hm.1, fun b hb => hm.2 b (h.mem_iff.mpr hb)⟩

theorem filter_qual_toMul (load : Int) (L : List (List Int)) :
    L.filter ((fun s => decide (load ≤ Multiset.sum s)) ∘ toMul) =
      L.filter (fun c => decide (load ≤ c.sum)) :=
  List.filter_congr (by
    intro c _
    simp [Function.comp, toMul_sum])

theorem filter_capeq_toMul (m : Int) (L : List (List Int)) :
    L.filter ((fun s => decide (Multiset.sum s = m)) ∘ toMul) =
      L.filter (fun c => decide (c.sum = m)) :=
  List.filter_congr (by
    intro c _
    simp [Function.comp, toMul_sum])

theorem qualCaps_perm (load : Int) {bins bins' : List Int}
    (h : bins.Perm bins') (n : Nat) :
    (qualCaps load bins n).Perm (qualCaps load bins' n) := by
  have hperm : ((cwr bins n).map toMul).Perm ((cwr bins' n).map toMul) :=
    Multiset.coe_eq_coe.mp (cwrM_perm h n)
  have key : ∀ L : List (List Int),
      (L.filter fun c => decide (load ≤ c.sum)).map List.sum =
        ((L.map toMul).filter fun s => decide (load ≤ Multiset.sum s)).map
          Multiset.sum := by
    intro L
    rw [List.filter_map, filter_qual_toMul, List.map_map]
    apply List.map_congr_left
    intro c _
    exact (toMul_sum c).symm
  rw [qualCaps, qualCaps, key, key]
  exact (hperm.filter _).map _

theorem minQualCap_perm (load : Int) {bins bins' : List Int}
    (h : bins.Perm bins') (n : Nat) :
    minQualCap load bins n = minQualCap load bins' n :=
  int_min?_perm (qualCaps_perm load h n)

theorem fit_map_perm (load : Int) {bins bins' : List Int}
    (h : bins.Perm bins') (n : Nat) :
    ((fit_n_bins load bins n).map toMul).Perm
      ((fit_n_bins load bins' n).map toMul) := by
  cases hm : minQualCap load bins n with
  | none =>
    have hm' : minQualCap load bins' n = none := by
      rw [← minQualCap_perm load h n, hm]
    rw [fit_of_none hm, fit_of_none hm']
  | some m =>
    have hm' : minQualCap load bins' n = some m := by
      rw [← minQualCap_perm load h n, hm]
    rw [fit_of_some hm, fit_of_some hm']
    have key : ∀ L : List (List Int),
        ((L.filter fun c => decide (load ≤ c.sum)).filter
            fun c => decide (c.sum = m)).map toMul =
          ((L.map toMul).filter fun s => decide (load ≤ Multiset.sum s)).filter
            fun s => decide (Multiset.sum s = m) := by
      intro L
      rw [List.filter_map, List.filter_map, filter_qual_toMul, filter_capeq_toMul]
    rw [key, key]
    exact ((Multiset.coe_eq_coe.mp (cwrM_perm h n)).filter _).filter _

/-- Lifts "results coincide as multisets of multisets" to the fuel-bounded
solver outcome: either both runs return nothing, or both return lists that
denote the same multiset of combination-multisets. -/
def SolPerm : Option (List (List Int)) → Option (List (List Int)) → Prop
  | none, none => True
  | some r, some r' => (r.map toMul).Perm (r'.map toMul)
  | _, _ => False

theorem solPerm_none : SolPerm none none := trivial

theorem solPerm_some {r r' : List (List Int)}
    (h : (r.map toMul).Perm (r'.map toMul)) : SolPerm (some r) (some r') := h

theorem fit_nil_iff_perm (load : Int) {bins bins' : List Int}
    (h : bins.Perm bins') (n : Nat) :
    fit_n_bins load bins n = [] ↔ fit_n_bins load bins' n = [] := by
  rw [fit_eq_nil_iff, fit_eq_nil_iff, minQualCap_perm load h n]

theorem fit_headD_sum_perm (load : Int) {bins bins' : List Int}
    (h : bins.Perm bins') {n : Nat} (hne : fit_n_bins load bins n ≠ []) :
    ((fit_n_bins load bins n).headD []).sum =
      ((fit_n_bins load bins' n).headD []).sum := by
  have hne' : fit_n_bins load bins' n ≠ [] := fun hnil =>
    hne ((fit_nil_iff_perm load h n).mpr hnil)
  have h1 := headD_sum_of_fit_ne_nil hne
  have h2 := headD_sum_of_fit_ne_nil hne'
  rw [minQualCap_perm load h n] at h1
  rw [h1] at h2
  exact Option.some.inj h2

theorem lengthAux_succ (load : Int) (bins : List Int) (fuel n : Nat) :
    SolverLengthFirst.solveAux load bins (fuel + 1) n =
      if fit_n_bins load bins (n + 1) = [] then
        SolverLengthFirst.solveAux load bins fuel (n + 1)
      else some (fit_n_bins load bins (n + 1)) := rfl

theorem lengthAux_perm (load : Int) {bins bins' : List Int}
    (h : bins.Perm bins') :
    ∀ fuel n, SolPerm (SolverLengthFirst.solveAux load bins fuel n)
      (SolverLengthFirst.solveAux load bins' fuel n) := by
  intro fuel
  induction fuel with
  | zero =>
    intro n
    exact solPerm_none
  | succ fuel ih =>
    intro n
    rw [lengthAux_succ, lengthAux_succ]
    by_cases hfit : fit_n_bins load bins (n + 1) = []
    · rw [if_pos hfit, if_pos ((fit_nil_iff_perm load h (n + 1)).mp hfit)]
      exact ih (n + 1)
    · rw [if_neg hfit,
        if_neg (fun h' => hfit ((fit_nil_iff_perm load h (n + 1)).mpr h'))]
      exact solPerm_some (fit_map_perm load h (n + 1))

theorem capacityAux_succ (load : Int) (bins : List Int) (fuel n : Nat) :
    SolverCapacityFirst.solveAux load bins (fuel + 1) n =
      match fit_n_bins load bins (n + 1) with
      | [] => SolverCapacityFirst.solveAux load bins fuel (n + 1)
      | c :: rest =>
        if c.sum = load then some (c :: rest)
        else SolverCapacityFirst.solveAux load bins fuel (n + 1) := rfl

theorem capacityAux_perm (load : Int) {bins bins' : List Int}
    (h : bins.Perm bins') :
    ∀ fuel n, SolPerm (SolverCapacityFirst.solveAux load bins fuel n)
      (SolverCapacityFirst.solveAux load bins' fuel n) := by
  intro fuel
  induction fuel with
  | zero =>
    intro n
    exact solPerm_none
  | succ fuel ih =>
    intro n
    rw [capacityAux_succ, capacityAux_succ]
    cases hfit : fit_n_bins load bins (n + 1) with
    | nil =>
      have hfit' : fit_n_bins load bins' (n + 1) = [] :=
        (fit_nil_iff_perm load h (n + 1)).mp hfit
      rw [hfit']
      exact ih (n + 1)
    | cons c rest =>
      have hne : fit_n_bins load bins (n + 1) ≠ [] := by
        rw [hfit]
        simp
      have hne' : fit_n_bins load bins' (n + 1) ≠ [] := fun hnil =>
        hne ((fit_nil_iff_perm load h (n + 1)).mpr hnil)
      cases hfit' : fit_n_bins load bins' (n + 1) with
      | nil => exact absurd hfit' hne'
      | cons c' rest' =>
        have hsum : c.sum = c'.sum := by
          have hh := fit_headD_sum_perm load h hne
          rw [hfit, hfit'] at hh
          simpa using hh
        show SolPerm
          (if c.sum = load then some (c :: rest)
            else SolverCapacityFirst.solveAux load bins fuel (n + 1))
          (if c'.sum = load then some (c' :: rest')
            else SolverCapacityFirst.solveAux load bins' fuel (n + 1))
        by_cases hs : c.sum = load
        · rw [if_pos hs, if_pos (by rw [← hsum]; exact hs)]
          have hp := fit_map_perm load h (n + 1)
          rw [hfit, hfit'] at hp
          exact solPerm_some hp
        · rw [if_neg hs, if_neg (by rw [← hsum]; exact hs)]
          exact ih (n + 1)

theorem comboAux_succ (load : Int) (bins : List Int) (fuel n : Nat)
    (combos_n : List (List Int)) :
    SolverCombo.solveAux load bins (fuel + 1) n combos_n =
      if combos_n = [] ∨ fit_n_bins load bins (n + 1) = [] then
        SolverCombo.solveAux load bins fuel (n + 1) (fit_n_bins load bins (n + 1))
      else if ((fit_n_bins load bins (n + 1)).headD []).sum <
          (combos_n.headD []).sum then
        some (fit_n_bins load bins (n + 1))
      else some combos_n := rfl

theorem comboAux_perm (load : Int) {bins bins' : List Int}
    (h : bins.Perm bins') :
    ∀ fuel n, SolPerm
      (SolverCombo.solveAux load bins fuel n (fit_n_bins load bins n))
      (SolverCombo.solveAux load bins' fuel n (fit_n_bins load bins' n)) := by
  intro fuel
  induction fuel with
  | zero =>
    intro n
    exact solPerm_none
  | succ fuel ih =>
    intro n
    rw [comboAux_succ, comboAux_succ]
    by_cases hcond : fit_n_bins load bins n = [] ∨ fit_n_bins load bins (n + 1) = []
    · have hcond' : fit_n_bins load bins' n = [] ∨
          fit_n_bins load bins' (n + 1) = [] := by
        rcases hcond with hc | hc
        · exact Or.inl ((fit_nil_iff_perm load h n).mp hc)
        · exact Or.inr ((fit_nil_iff_perm load h (n + 1)).mp hc)
      rw [if_pos hcond, if_pos hcond']
      exact ih (n + 1)
    · push_neg at hcond
      have hcond' : ¬(fit_n_bins load bins' n = [] ∨
          fit_n_bins load bins' (n + 1) = []) := by
        push_neg
        exact ⟨fun hnil => hcond.1 ((fit_nil_iff_perm load h n).mpr hnil),
          fun hnil => hcond.2 ((fit_nil_iff_perm load h (n + 1)).mpr hnil)⟩
      rw [if_neg (by push_neg; exact hcond), if_neg hcond']
      have hsn := fit_headD_sum_perm load h hcond.1
      have hsn1 := fit_headD_sum_perm load h hcond.2
      by_cases hlt : ((fit_n_bins load bins (n + 1)).headD []).sum <
          ((fit_n_bins load bins n).headD []).sum
      · rw [if_pos hlt, if_pos (by rw [← hsn, ← hsn1]; exact hlt)]
        exact solPerm_some (fit_map_perm load h (n + 1))
      · rw [if_neg hlt, if_neg (by rw [← hsn, ← hsn1]; exact hlt)]
        exact solPerm_some (fit_map_perm load h n)

/-- C8 counterexample: permuting the bins changes the returned result
(results are tuples read off the permuted enumeration): on load 5, bins
`[2, 3]` versus `[3, 2]`, the length-first solver returns `[(2, 3)]` versus
`[(3, 2)]`. -/
theorem claim_C8_counterexample :
    [(2 : Int), 3].Perm [3, 2] ∧
      SolverLengthFirst.solve 5 [2, 3] 2 = some [[2, 3]] ∧
      SolverLengthFirst.solve 5 [3, 2] 2 = some [[3, 2]] ∧
      SolverLengthFirst.solve 5 [2, 3] 2 ≠ SolverLengthFirst.solve 5 [3, 2] 2 := by
  refine ⟨by decide, by decide, by decide, by decide⟩

/-- C8 (amended): for any permutation of the bins sequence, each strategy
produces the same result up to the order of the returned combinations and
the order inside each combination (the same multiset of combination
multisets), and the two runs agree on whether a result is produced. -/
theorem claim_C8 (load : Int) (bins bins' : List Int) (h : bins.Perm bins')
    (fuel : Nat) :
    SolPerm (SolverLengthFirst.solve load bins fuel)
        (SolverLengthFirst.solve load bins' fuel) ∧
      SolPerm (SolverCapacityFirst.solve load bins fuel)
        (SolverCapacityFirst.solve load bins' fuel) ∧
      SolPerm (SolverCombo.solve load bins fuel)
        (SolverCombo.solve load bins' fuel) :=
  ⟨lengthAux_perm load h fuel 0, capacityAux_perm load h fuel 0,
    comboAux_perm load h fuel 1⟩

theorem claim_C8_witness :
    SolPerm (SolverLengthFirst.solve 5 [2, 3] 2)
        (SolverLengthFirst.solve 5 [3, 2] 2) ∧
      SolPerm (SolverCapacityFirst.solve 5 [2, 3] 2)
        (SolverCapacityFirst.solve 5 [3, 2] 2) ∧
      SolPerm (SolverCombo.solve 5 [2, 3] 2)
        (SolverCombo.solve 5 [3, 2] 2) :=
  claim_C8 5 [2, 3] [3, 2] (by decide) 2

/-- C9 counterexample: with duplicated bins the engine returns duplicate
combinations: `fit_n_bins 2 [2, 2] 1` is `[(2,), (2,)]`. -/
theorem claim_C9_counterexample :
    fit_n_bins 2 [2, 2] 1 = [[2], [2]] ∧ ¬(fit_n_bins 2 [2, 2] 1).Nodup := by
  constructor
  · decide
  · decide

/-- C9 (amended): when the bins sequence itself contains no duplicates, the
list returned by `fit_n_bins` contains no duplicate combinations. -/
theorem claim_C9 (load : Int) (bins : List Int) (n : Nat) (hnd : bins.Nodup) :
    (fit_n_bins load bins n).Nodup := by
  cases hm : minQualCap load bins n with
  | none =>
    rw [fit_of_none hm]
    simp
  | some m =>
    rw [fit_of_some hm]
    exact ((cwr_nodup hnd n).filter _).filter _

theorem claim_C9_witness : (fit_n_bins 9 [2, 3, 5] 2).Nodup :=
  claim_C9 9 [2, 3, 5] 2 (by decide)

/-- C10: the factory returns the strategy instance matching the given
`solver_type` bound to the load and bins, and `none` for every other
`solver_type`. -/
theorem claim_C10 (load : Int) (bins : List Int) (solver_type : String) :
    create_solver load bins solver_type =
      if solver_type = "length" then some (SolverInstance.lengthFirst load bins)
      else if solver_type = "capacity" then
        some (SolverInstance.capacityFirst load bins)
      else if solver_type = "combo" then
        some (SolverInstance.comboSolver load bins)
      else none := by
  by_cases h1 : solver_type = "length"
  · subst h1
    rfl
  · by_cases h2 : solver_type = "capacity"
    · subst h2
      rfl
    · by_cases h3 : solver_type = "combo"
      · subst h3
        rfl
      · rw [if_neg h1, if_neg h2, if_neg h3, create_solver, registry]
        have e1 : ((none : Option String) == some solver_type) = false := rfl
        have e2 : (some ("length") == some solver_type) = false :=
          beq_eq_false_iff_ne.mpr (by simpa using fun h => h1 h.symm)
        have e3 : (some ("capacity") == some solver_type) = false :=
          beq_eq_false_iff_ne.mpr (by simpa using fun h => h2 h.symm)
        have e4 : (some ("combo") == some solver_type) = false :=
          beq_eq_false_iff_ne.mpr (by simpa using fun h => h3 h.symm)
        simp [List.find?, e1, e2, e3, e4]

theorem claim_C7_witness :
    List.sum [(2 : Int), 2, 5] ≤ List.sum [(5 : Int), 5] :=
  claim_C7 9 [2, 3, 5] (by decide) (by decide) 3 2
    [[2, 2, 5], [3, 3, 3]] [[5, 5]] (by decide) (by decide)
    [2, 2, 5] (by decide) [5, 5] (by decide)

end PBP
